/-
Verification of the dyPolyChord dynamic nested sampling pipeline.

The development shallowly embeds the pure/algorithmic content of
`dyPolyChord/output_processing.py` (run merging and deduplication) and
`dypypolychord/__init__.py` (exploration loop termination, live-point
schedule construction, resume-checkpoint selection, settings handling).

Modelling conventions:
* numpy float arrays carrying log-likelihoods or live-point targets are
  `List Rat`; thread labels are `List Int`; index arrays are `List Nat`.
* `thread_min_max` rows are `Option Rat × Rat`: the first component is the
  thread's birth log-likelihood, `none` standing for `-infinity`.
* numpy operations used by the source are embedded one-for-one:
  `np.unique` ~ `npUnique` (sorted distinct values), `np.where(x == v)[0]`
  ~ `idxsOf`, `np.delete` ~ `npDelete`, slices ~ `List.take`/`List.drop`.
* Python `assert`/`IndexError` sites become distinct constructors of
  `MergeErr`; a function that can raise returns `Except`/`Option` or an
  explicit error component, together with the state of the mutated
  arguments at the point of exit.
* Python `int()` truncation toward zero on a rational is `pyInt`.
-/
import Mathlib

set_option maxHeartbeats 1000000

namespace DyPolyChord

/-! ### Generic list helpers mirrored from numpy -/

/-- Insert a value into a (sorted) list, keeping order: the insertion step
of a plain insertion sort. -/
def insSorted {α : Type} [LinearOrder α] (x : α) : List α → List α
  | [] => [x]
  | y :: ys => if x ≤ y then x :: y :: ys else y :: insSorted x ys

/-- Insertion sort with respect to `≤`. -/
def sortLe {α : Type} [LinearOrder α] (l : List α) : List α :=
  l.foldr insSorted []

/-- Embeds `np.unique`: the sorted distinct values of an integer array. -/
def npUnique (l : List Int) : List Int := sortLe l.dedup

/-- Embeds `np.where(labels == lab)[0]`: the ascending list of positions
holding the value `lab`. -/
def idxsOf (lab : Int) (labels : List Int) : List Nat :=
  (List.range labels.length).filter (fun i => labels.getD i 0 == lab)

/-- Helper of `npDelete`: walk the list with a running position counter,
dropping the positions listed in `inds`. -/
def npDeleteFrom {α : Type} (inds : List Nat) : Nat → List α → List α
  | _, [] => []
  | i, x :: xs =>
    if inds.contains i then npDeleteFrom inds (i + 1) xs
    else x :: npDeleteFrom inds (i + 1) xs

/-- Embeds `np.delete(l, inds)`: delete the positions in `inds` from `l`. -/
def npDelete {α : Type} (l : List α) (inds : List Nat) : List α :=
  npDeleteFrom inds 0 l

/-- Python `int()` applied to a rational: truncation toward zero. -/
def pyInt (q : Rat) : Int :=
  if 0 ≤ q.num then ((q.num.toNat / q.den : Nat) : Int)
  else -(((-q.num).toNat / q.den : Nat) : Int)


/-! ### Data model: nestcheck-format runs

A run dict as produced by `process_polychord_run`: point coordinates
`theta`, log-likelihoods `logl`, per-sample live-point counts
`nlive_array`, per-sample thread labels, and per-thread
`(birth, death)` log-likelihood bounds (`thread_min_max`), where a birth
of `none` stands for `-np.inf`. -/
structure NSRun where
  theta : List (List Rat)
  logl : List Rat
  nlive_array : List Rat
  thread_labels : List Int
  thread_min_max : List (Option Rat × Rat)
deriving DecidableEq, Repr

/-- One constructor per distinct `assert`/`IndexError` site of the merge
pipeline in `output_processing.py`. -/
inductive MergeErr where
  /-- line 91: `assert np.array_equal(init['logl'][:resume_ndead], dyn['logl'][:resume_ndead])` -/
  | prefixMismatch
  /-- Failure of `th_inds[0]` on an empty index array (impossible for labels drawn from `np.unique`) -/
  | indexError
  /-- line 106: `assert np.where(dyn['logl'] == live_logl)[0].shape == (1,)` -/
  | liveNotUnique (l : Rat)
  /-- line 108: `init['thread_min_max'][i, 0] = live_logl` out of range -/
  | tmmIndexError
  /-- line 124: `init['thread_min_max'][i, ...]` out of range in the relabel loop -/
  | relabelIndexError
  /-- line 124: `assert init['thread_min_max'][i, 0] <= init['logl'][inds[0]]` -/
  | relabelMinAssert
  /-- line 125: `assert init['thread_min_max'][i, 1] == init['logl'][inds[-1]]` -/
  | relabelMaxAssert
  /-- Raised when `combine_threads(..., assert_birth_point=True)` rejects a thread whose
  birth is neither `-inf` nor the `logl` of a sample of the combined run -/
  | birthPointAssert
  /-- line 47: `assert np.all(init['thread_min_max'][:, 0] == -np.inf)` -/
  | initBirthAssert
  /-- line 56: `assert np.all(dyn['thread_min_max'][:, 0] == -np.inf)` -/
  | dynBirthAssert
deriving DecidableEq, Repr

/-- The merge mutates `init` in place; `dyn` is only read.  The pair is the
program state threaded through `combine_resumed_dyn_run`. -/
structure MergeState where
  init : NSRun
  dyn : NSRun
deriving DecidableEq, Repr

/-- Exit state of the live-point removal loop (lines 98-108): optional
failure, the `thread_min_max` array as mutated so far, and the accumulated
`live_inds` / `empty_thread_inds` lists. -/
structure LiveScan where
  err : Option MergeErr
  tmm : List (Option Rat × Rat)
  liveInds : List Nat
  emptyInds : List Nat
deriving DecidableEq, Repr

/-- Compares `birth <= x` where a birth of `none` is `-np.inf`. -/
def boundLeB (b : Option Rat) (x : Rat) : Bool :=
  match b with
  | none => true
  | some v => decide (v ≤ x)

/-! ### combine_resumed_dyn_run (output_processing.py lines 82-135) -/

/-- Lines 93-95: drop the first `resume_ndead` entries of `theta`,
`nlive_array`, `logl` and `thread_labels`. -/
def dropShared (k : Nat) (r : NSRun) : NSRun :=
  { r with
    theta := r.theta.drop k,
    nlive_array := r.nlive_array.drop k,
    logl := r.logl.drop k,
    thread_labels := r.thread_labels.drop k }

/-- Lines 100-108: for each (sorted, distinct) thread label of the
truncated exploratory run, record the first index of that thread as a
live-at-resume point, record the thread as empty when that was its only
sample, check the live point's `logl` occurs exactly once in `dyn`, and
overwrite the thread's birth bound with that `logl`. -/
def liveLoopGo (dynLogl tailLogl : List Rat) (labels : List Int) :
    List Int → Nat → List (Option Rat × Rat) → List Nat → List Nat → LiveScan
  | [], _, tmm, liveInds, emptyInds => ⟨none, tmm, liveInds, emptyInds⟩
  | lab :: rest, i, tmm, liveInds, emptyInds =>
    match idxsOf lab labels with
    | [] => ⟨some .indexError, tmm, liveInds, emptyInds⟩
    | j :: tl =>
      if dynLogl.count (tailLogl.getD j 0) = 1 then
        if i < tmm.length then
          liveLoopGo dynLogl tailLogl labels rest (i + 1)
            (tmm.set i (some (tailLogl.getD j 0), (tmm.getD i (none, 0)).2))
            (liveInds ++ [j])
            (if tl = [] then emptyInds ++ [i] else emptyInds)
        else ⟨some .tmmIndexError, tmm, liveInds ++ [j],
          if tl = [] then emptyInds ++ [i] else emptyInds⟩
      else ⟨some (.liveNotUnique (tailLogl.getD j 0)), tmm, liveInds ++ [j],
        if tl = [] then emptyInds ++ [i] else emptyInds⟩

/-- The whole loop of lines 100-108 on the truncated exploratory run. -/
def afterLive (dynR init1 : NSRun) : LiveScan :=
  liveLoopGo dynR.logl init1.logl init1.thread_labels
    (npUnique init1.thread_labels) 0 init1.thread_min_max [] []

/-- Lines 110-112: `np.delete` the live-at-resume positions from every
per-sample array; the loop already rewrote `thread_min_max`. -/
def dedupInit (init1 : NSRun) (ls : LiveScan) : NSRun :=
  { init1 with
    theta := npDelete init1.theta ls.liveInds,
    nlive_array := npDelete init1.nlive_array ls.liveInds,
    logl := npDelete init1.logl ls.liveInds,
    thread_labels := npDelete init1.thread_labels ls.liveInds,
    thread_min_max := ls.tmm }

/-- Lines 120-126: the empty-thread relabelling loop's assertion sequence
(the relabelled array itself is only installed after the loop finishes). -/
def relabelGo (logl : List Rat) (labels : List Int)
    (tmm : List (Option Rat × Rat)) :
    List Int → Nat → Option MergeErr
  | [], _ => none
  | lab :: rest, i =>
    match idxsOf lab labels with
    | [] => some .indexError
    | j :: tl =>
      if i < tmm.length then
        if boundLeB (tmm.getD i (none, 0)).1 (logl.getD j 0) then
          if (tmm.getD i (none, 0)).2
              == logl.getD ((j :: tl).getLast (List.cons_ne_nil j tl)) 0 then
            relabelGo logl labels tmm rest (i + 1)
          else some .relabelMaxAssert
        else some .relabelMinAssert
      else some .relabelIndexError

/-- Lines 113-130: if some thread became empty, delete its
`thread_min_max` row, re-check bounds thread by thread, and relabel the
remaining threads contiguously; in every case offset the exploratory
labels by the dynamic run's thread count.  Returns an optional failure
together with the exploratory run's state on exit. -/
def finishInit (dynThreads : Nat) (init2 : NSRun) (emptyInds : List Nat) :
    Option MergeErr × NSRun :=
  if emptyInds = [] then
    (none, { init2 with thread_labels :=
      init2.thread_labels.map (fun lab => lab + (dynThreads : Int)) })
  else
    match relabelGo init2.logl init2.thread_labels
        (npDelete init2.thread_min_max emptyInds)
        (npUnique init2.thread_labels) 0 with
    | some e =>
      (some e, { init2 with
        thread_min_max := npDelete init2.thread_min_max emptyInds })
    | none =>
      (none, { init2 with
        thread_min_max := npDelete init2.thread_min_max emptyInds,
        thread_labels := init2.thread_labels.map (fun lab =>
          (((npUnique init2.thread_labels).findIdx (fun u => u == lab) : Nat)
            : Int) + (dynThreads : Int)) })

/-- Modelled from the spec: `nestcheck.ns_run_utils.get_run_threads` and
`combine_threads(..., assert_birth_point=True)` live outside this
repository.  Per the spec's Run Merger contract, combining the two runs'
threads concatenates their samples, reorders them by `logl`, and verifies
every thread's birth bound is `-infinity` or the `logl` of a sample of the
merged set.  Only the merged `logl` sequence is needed by the claims. -/
def combineThreadsLogl (dynR initR : NSRun) : Except MergeErr (List Rat) :=
  if (dynR.thread_min_max ++ initR.thread_min_max).all
      (fun row => match row.1 with
        | none => true
        | some b => (sortLe (dynR.logl ++ initR.logl)).contains b) then
    .ok (sortLe (dynR.logl ++ initR.logl))
  else .error .birthPointAssert

/-- Embeds `combine_resumed_dyn_run(init, dyn, resume_ndead)`
(output_processing.py lines 82-135).  The first component is the merged
run's `logl` sequence, or the failure that aborted the merge; the second
component is the state of the two argument runs at exit (`init` is
mutated in place by the source, `dyn` never is). -/
def combine_resumed_dyn_run (k : Nat) (st : MergeState) :
    Except MergeErr (List Rat) × MergeState :=
  if st.init.logl.take k = st.dyn.logl.take k then
    match (afterLive st.dyn (dropShared k st.init)).err with
    | some e =>
      (.error e, { st with init := { dropShared k st.init with
        thread_min_max := (afterLive st.dyn (dropShared k st.init)).tmm } })
    | none =>
      match finishInit st.dyn.thread_min_max.length
          (dedupInit (dropShared k st.init)
            (afterLive st.dyn (dropShared k st.init)))
          (afterLive st.dyn (dropShared k st.init)).emptyInds with
      | (some e, init3) => (.error e, { st with init := init3 })
      | (none, init3) =>
        match combineThreadsLogl st.dyn init3 with
        | .ok l => (.ok l, { st with init := init3 })
        | .error e => (.error e, { st with init := init3 })
  else (.error .prefixMismatch, st)

/-! ### process_dypolychord_run (output_processing.py lines 36-79) -/

/-- The pickled `_dyn_info` record: the only field the control flow
inspects is whether `resume_ndead` is present. -/
structure DynInfo where
  resume_ndead : Option Nat
deriving DecidableEq, Repr

/-- Modelled from the spec: `nestcheck.ns_run_utils.combine_ns_runs` lives
outside this repository.  Per the spec's Independent-case contract the two
disjoint runs' samples are concatenated and reordered by `logl`. -/
def combine_ns_runs_logl (initR dynR : NSRun) : List Rat :=
  sortLe (initR.logl ++ dynR.logl)

/-- Embeds `process_dypolychord_run` (lines 36-79) after the two runs and the
`_dyn_info` record have been loaded from disk (file parsing is an external
collaborator): assert every exploratory thread starts at `-inf`; when
`dynamic_goal == 0`, assert the same of the dynamic run; then either
combine the disjoint runs or merge the resumed runs. -/
def process_dypolychord_run (init dyn : NSRun) (info : DynInfo)
    (dynamic_goal : Int) : Except MergeErr (List Rat) :=
  if init.thread_min_max.all (fun row => row.1.isNone) then
    if dynamic_goal = 0 ∧ ¬ dyn.thread_min_max.all (fun row => row.1.isNone) then
      .error .dynBirthAssert
    else
      match info.resume_ndead with
      | none => .ok (combine_ns_runs_logl init dyn)
      | some k => (combine_resumed_dyn_run k ⟨init, dyn⟩).1
  else .error .initBirthAssert

/-! ### Exploration controller (dypypolychord/__init__.py lines 74-98)

The sampler is an external collaborator; each iteration appends
`output.ndead - pc_settings.nlive` to `step_ndead`.  The loop is embedded
as a consumer of the stream of values the successive sampler calls would
append, stopping exactly when the source's condition
`step_ndead[-1] == step_ndead[-2] + 1` holds. -/

/-- Holds when `len(step_ndead) >= 2 and step_ndead[-1] == step_ndead[-2] + 1`. -/
def stopCond (hist : List Int) : Bool :=
  match hist.reverse with
  | a :: b :: _ => a == b + 1
  | _ => false

/-- The `while add_points` loop: append the next recorded step, stop when
`stopCond` holds, otherwise keep consuming sampler outputs. -/
def explorationLoop : List Int → List Int → List Int
  | hist, [] => hist
  | hist, o :: rest =>
    if stopCond (hist ++ [o]) then hist ++ [o]
    else explorationLoop (hist ++ [o]) rest

/-! ### Schedule calculator (lines 104-125) -/

/-- Embeds `np.where(nlives_array > ninit)[0][0]` (line 114): index of the first
entry exceeding `ninit`, or `none` for the raising `IndexError` when no
entry qualifies. -/
def peakStartInd (a : List Rat) (ninit : Rat) : Option Nat :=
  match a with
  | [] => none
  | x :: xs =>
    if ninit < x then some 0
    else (peakStartInd xs ninit).map (fun p => p + 1)

/-- Lines 114-115: `nlives_array[:peak_start_ind] = ninit`, failing like
the source when the peak-onset lookup raises. -/
def clampNlives (a : List Rat) (ninit : Rat) : Option (List Rat) :=
  match peakStartInd a ninit with
  | none => none
  | some p =>
    some ((List.range a.length).map
      (fun i => if i < p then ninit else a.getD i 0))

/-- The stride positions `dyn_nlive_step * np.asarray(range(n // dyn_nlive_step))`
(lines 118-119), where `n` is the exploratory run's sample count. -/
def scheduleSteps (n dynStep : Nat) : List Nat :=
  (List.range (n / dynStep)).map (fun j => dynStep * j)

/-- Lines 117-125: the `nlives` dict, as the ordered list of insertions
performed on it.  Seeded with `{-1. * 10e100: ninit}`; then for each
stride position `i` (over `steps[:-1]`), the integer target read one
stride ahead is assigned to the key `logl[steps[i]]` unless it is below 1. -/
def buildNlivesDict (nlivesArray loglInit : List Rat) (dynStep : Nat)
    (ninit : Int) : List (Rat × Int) :=
  (-(10 ^ 101 : Rat), ninit) ::
    (List.range ((scheduleSteps nlivesArray.length dynStep).length - 1)).filterMap
      (fun i =>
        if 1 ≤ pyInt (nlivesArray.getD
            ((scheduleSteps nlivesArray.length dynStep).getD (i + 1) 0) 0) then
          some (loglInit.getD
              ((scheduleSteps nlivesArray.length dynStep).getD i 0) 0,
            pyInt (nlivesArray.getD
              ((scheduleSteps nlivesArray.length dynStep).getD (i + 1) 0) 0))
        else none)

/-! ### Resume selector (lines 127-130) -/

/-- Embeds `resume_ndead = step_ndead[np.where(np.asarray(step_ndead) - 1
< peak_start_ind)[0][-1]]`: the dead count recorded at the last (largest)
index whose dead count minus one is strictly below the peak-onset index;
`none` for the raising `IndexError` when no index qualifies. -/
def selectResumeNdead (stepNdead : List Int) (peak : Nat) : Option Int :=
  let qualIdxs := (List.range stepNdead.length).filter
    (fun i => decide (stepNdead.getD i 0 - 1 < (peak : Int)))
  match qualIdxs.getLast? with
  | none => none
  | some i => some (stepNdead.getD i 0)

/-! ### PolyChord settings handling (lines 46-146)

`run_dynamic_polychord` deep-copies `pc_settings_in` before each phase and
edits only the copies.  The deep copy of a settings record is embedded as
the value itself (value semantics sever all aliasing, which is exactly
what `copy.deepcopy` provides); every assignment statement of the source
targets the copy binding `pc_settings` and is embedded as a record update
of that binding. -/

structure PCSettingsPy where
  base_dir : String
  file_root : String
  nlive : Int
  nlives : List (Rat × Int)
  read_resume : Bool
  write_resume : Bool
  max_ndead : Int
deriving DecidableEq, Repr

/-- Embeds `copy.deepcopy` on a settings object: value semantics make the
copy trivial while severing all aliasing. -/
def deepcopyS (s : PCSettingsPy) : PCSettingsPy := s

/-- Settings edits performed by the first `t` iterations of the
exploration loop (lines 77-80): from the second iteration on the copy's
`read_resume` is switched on, and each iteration raises the copy's
`max_ndead` cap to `(len(step_ndead) + 1) * init_step`. -/
def loopIterSettings (initStep : Int) : Nat → PCSettingsPy → PCSettingsPy
  | 0, s => s
  | t + 1, s =>
    let s0 := loopIterSettings initStep t s
    let s1 := if t = 1 then { s0 with read_resume := true } else s0
    { s1 with max_ndead := ((t : Int) + 1) * initStep }

/-- The settings dataflow of `run_dynamic_polychord` (lines 69-146):
returns the caller's `pc_settings_in` as it stands after the call,
together with the settings object passed to the exploratory sampler calls
(after `nIter` loop iterations) and the one passed to the dynamic call. -/
def run_dynamic_polychord_settings (s_in : PCSettingsPy) (ninit initStep
    dynStep : Int) (nlivesDict : List (Rat × Int)) (nIter : Nat) :
    PCSettingsPy × PCSettingsPy × PCSettingsPy :=
  let pc1 := deepcopyS s_in
  let pc1 := { pc1 with
    file_root := s_in.file_root ++ "_init",
    nlive := ninit,
    write_resume := true,
    read_resume := false }
  let pc1 := loopIterSettings initStep nIter pc1
  let pc2 := deepcopyS s_in
  let pc2 := { pc2 with
    nlive := dynStep,
    nlives := nlivesDict,
    read_resume := true,
    file_root := s_in.file_root ++ "_dyn" }
  (s_in, pc1, pc2)

/-! ### Facts about the helper functions -/

theorem insSorted_perm {α : Type} [LinearOrder α] (x : α) (l : List α) :
    List.Perm (insSorted x l) (x :: l) := by
  induction l with
  | nil => simp [insSorted]
  | cons y ys ih =>
    by_cases h : x ≤ y
    · simp [insSorted, h]
    · simp only [insSorted, if_neg h]
      exact List.Perm.trans (ih.cons y) (List.Perm.swap _ _ _)

theorem sortLe_perm {α : Type} [LinearOrder α] (l : List α) :
    List.Perm (sortLe l) l := by
  induction l with
  | nil => simp [sortLe]
  | cons y ys ih =>
    exact List.Perm.trans (insSorted_perm y (sortLe ys)) (ih.cons y)

theorem sortLe_length {α : Type} [LinearOrder α] (l : List α) :
    (sortLe l).length = l.length :=
  (sortLe_perm l).length_eq

theorem sortLe_mem {α : Type} [LinearOrder α] {x : α} {l : List α} :
    x ∈ sortLe l ↔ x ∈ l :=
  (sortLe_perm l).mem_iff

theorem sortLe_nodup_iff {α : Type} [LinearOrder α] {l : List α} :
    (sortLe l).Nodup ↔ l.Nodup :=
  (sortLe_perm l).nodup_iff

theorem npUnique_nodup (l : List Int) : (npUnique l).Nodup :=
  sortLe_nodup_iff.mpr l.nodup_dedup

theorem mem_npUnique {x : Int} {l : List Int} : x ∈ npUnique l ↔ x ∈ l := by
  unfold npUnique
  rw [sortLe_mem, List.mem_dedup]

theorem npUnique_length_le (l : List Int) : (npUnique l).length ≤ l.length := by
  have h1 : (npUnique l).length = l.dedup.length := sortLe_length _
  have h2 : l.dedup.Sublist l := l.dedup_sublist
  exact h1 ▸ h2.length_le

theorem mem_idxsOf {lab : Int} {labels : List Int} {j : Nat} :
    j ∈ idxsOf lab labels → labels.getD j 0 = lab ∧ j < labels.length := by
  intro h
  unfold idxsOf at h
  have h' := List.mem_filter.mp h
  refine ⟨?_, List.mem_range.mp h'.1⟩
  exact beq_iff_eq.mp h'.2

theorem idxsOf_ne_nil {lab : Int} {labels : List Int} (h : lab ∈ labels) :
    idxsOf lab labels ≠ [] := by
  obtain ⟨j, hj, hget⟩ := List.mem_iff_getElem.mp h
  have hmem : j ∈ idxsOf lab labels := by
    unfold idxsOf
    refine List.mem_filter.mpr ⟨List.mem_range.mpr hj, ?_⟩
    rw [List.getD_eq_getElem _ _ hj, hget]
    simp
  intro hnil
  rw [hnil] at hmem
  exact (List.not_mem_nil j) hmem

theorem npDeleteFrom_length {α : Type} (inds : List Nat) :
    ∀ (l : List α) (i : Nat),
      (npDeleteFrom inds i l).length
        = l.length -
          ((List.range l.length).filter (fun j => inds.contains (i + j))).length := by
  intro l
  induction l with
  | nil => intro i; simp [npDeleteFrom]
  | cons x xs ih =>
    intro i
    have hmap : (((List.range xs.length).map Nat.succ).filter
          (fun j => inds.contains (i + j))).length
        = ((List.range xs.length).filter
            (fun j => inds.contains (i + 1 + j))).length := by
      rw [List.filter_map, List.length_map]
      congr 1
      apply List.filter_congr
      intro j _
      show inds.contains (i + (j + 1)) = inds.contains (i + 1 + j)
      congr 1
      omega
    have hle : ((List.range xs.length).filter
        (fun j => inds.contains (i + 1 + j))).length ≤ xs.length := by
      have h := List.length_filter_le (fun j => inds.contains (i + 1 + j))
        (List.range xs.length)
      simpa using h
    have hfc : ((List.range (xs.length + 1)).filter
          (fun j => inds.contains (i + j))).length
        = (if inds.contains i = true then 1 else 0)
          + ((List.range xs.length).filter
              (fun j => inds.contains (i + 1 + j))).length := by
      rw [List.range_succ_eq_map, List.filter_cons]
      by_cases hc : inds.contains (i + 0) = true
      · have hc' : inds.contains i = true := by simpa using hc
        rw [if_pos hc, List.length_cons, hmap, if_pos hc']
        omega
      · have hc' : ¬ inds.contains i = true := by simpa using hc
        rw [if_neg hc, hmap, if_neg hc']
        omega
    by_cases hc : inds.contains i = true
    · simp only [npDeleteFrom, if_pos hc, List.length_cons, ih (i + 1), hfc,
        if_pos hc]
      omega
    · simp only [npDeleteFrom, if_neg hc, List.length_cons, ih (i + 1), hfc,
        if_neg hc]
      omega

theorem npDelete_length {α : Type} (l : List α) (inds : List Nat)
    (hnd : inds.Nodup) (hlt : ∀ j ∈ inds, j < l.length) :
    (npDelete l inds).length + inds.length = l.length := by
  unfold npDelete
  rw [npDeleteFrom_length]
  have hzero : ((List.range l.length).filter (fun j => inds.contains (0 + j)))
      = ((List.range l.length).filter (fun j => inds.contains j)) := by
    apply List.filter_congr
    intro j _
    rw [Nat.zero_add]
  rw [hzero]
  have hperm : List.Perm
      ((List.range l.length).filter (fun j => inds.contains j)) inds := by
    rw [List.perm_ext_iff_of_nodup
      ((List.nodup_range l.length).filter _) hnd]
    intro a
    constructor
    · intro ha
      have h := List.mem_filter.mp ha
      exact List.elem_iff.mp h.2
    · intro ha
      exact List.mem_filter.mpr
        ⟨List.mem_range.mpr (hlt a ha), List.elem_iff.mpr ha⟩
  rw [hperm.length_eq]
  have hle : inds.length ≤ l.length := by
    rw [← hperm.length_eq]
    have h := List.length_filter_le (fun j => inds.contains j)
      (List.range l.length)
    simpa using h
  omega

theorem npDeleteFrom_sublist {α : Type} (inds : List Nat) :
    ∀ (l : List α) (i : Nat), (npDeleteFrom inds i l).Sublist l := by
  intro l
  induction l with
  | nil => intro i; simp [npDeleteFrom]
  | cons x xs ih =>
    intro i
    by_cases hc : inds.contains i
    · simp only [npDeleteFrom, if_pos hc]
      exact (ih (i + 1)).cons x
    · simp only [npDeleteFrom, if_neg hc]
      exact (ih (i + 1)).cons₂ x

theorem npDelete_sublist {α : Type} (l : List α) (inds : List Nat) :
    (npDelete l inds).Sublist l :=
  npDeleteFrom_sublist inds l 0

theorem headD_mem {l : List Nat} (h : l ≠ []) : l.headD 0 ∈ l := by
  cases l with
  | nil => exact absurd rfl h
  | cons x xs => exact List.mem_cons_self x xs

/-! ### The exploration loop -/

theorem explorationLoop_length_lt :
    ∀ (outs : List Int) (hist : List Int), outs ≠ [] →
      hist.length < (explorationLoop hist outs).length := by
  intro outs
  induction outs with
  | nil => intro hist h; exact absurd rfl h
  | cons o rest ih =>
    intro hist _
    by_cases hs : stopCond (hist ++ [o]) = true
    · simp only [explorationLoop, if_pos hs]
      simp
    · simp only [explorationLoop, if_neg hs]
      rcases eq_or_ne rest [] with hr | hr
      · subst hr
        simp only [explorationLoop]
        simp
      · have h2 := ih (hist ++ [o]) hr
        have h3 : hist.length < (hist ++ [o]).length := by simp
        omega

/-- Claim C2: within an iteration the loop body stops the exploration
controller exactly when the freshly appended step history satisfies
`step_ndead[-1] == step_ndead[-2] + 1`; on the synthetic checkpoint-count
sequence `[50, 100, 101]` the loop stops after the third iteration
(consuming no further sampler outputs), recognising `101 == 100 + 1`. -/
theorem exploration_loop_stop_iff :
    (∀ (hist : List Int) (o : Int) (rest : List Int), rest ≠ [] →
      (explorationLoop hist (o :: rest) = hist ++ [o] ↔
        stopCond (hist ++ [o]) = true))
    ∧ explorationLoop [] [50, 100, 101, 999] = [50, 100, 101]
    ∧ stopCond [50, 100, 101] = true := by
  refine ⟨?_, by decide, by decide⟩
  intro hist o rest hrest
  constructor
  · intro heq
    by_contra hs
    rw [show explorationLoop hist (o :: rest)
        = explorationLoop (hist ++ [o]) rest from by
      simp only [explorationLoop, if_neg hs]] at heq
    have h2 := explorationLoop_length_lt rest (hist ++ [o]) hrest
    rw [heq] at h2
    omega
  · intro hs
    simp only [explorationLoop, if_pos hs]

/-- Witness for C2: applying the stop rule at a concrete input. -/
theorem exploration_loop_stop_iff_witness :
    explorationLoop [50, 100] [101, 999] = [50, 100] ++ [101] :=
  (exploration_loop_stop_iff.1 [50, 100] 101 [999] (by decide)).mpr (by decide)

/-! ### The resume selector -/

theorem filter_range_getLast?_none (n : Nat) (p : Nat → Bool)
    (h : ∀ i, i < n → ¬ p i = true) :
    ((List.range n).filter p).getLast? = none := by
  have hnil : (List.range n).filter p = [] := by
    rw [List.filter_eq_nil_iff]
    intro a ha
    exact h a (List.mem_range.mp ha)
  rw [hnil]
  rfl

theorem filter_range_getLast?_max (n : Nat) (p : Nat → Bool) :
    ∀ (i : Nat), i < n → p i = true → (∀ j, i < j → j < n → ¬ p j = true) →
      ((List.range n).filter p).getLast? = some i := by
  induction n with
  | zero => intro i hi; omega
  | succ m ih =>
    intro i hi hp hmax
    rw [List.range_succ, List.filter_append]
    by_cases hm : p m = true
    · have him : i = m := by
        by_contra hne
        exact hmax m (by omega) (by omega) hm
      subst him
      rw [List.getLast?_append]
      have h1 : List.filter p [i] = [i] := by
        simp [List.filter_cons, hp]
      rw [h1]
      rfl
    · have him : i < m := by
        rcases Nat.lt_succ_iff_lt_or_eq.mp hi with h | h
        · exact h
        · subst h; exact absurd hp hm
      rw [List.getLast?_append]
      have h1 : List.filter p [m] = [] := by
        simp [List.filter_cons, hm]
      rw [h1]
      simpa using ih i him hp (fun j h1 h2 => hmax j h1 (by omega))

/-- Claim C3: the resume selector returns the dead count recorded at the
largest index of the checkpoint history whose dead count minus one is
strictly below the peak-onset index, and fails (IndexError, modelled as
`none`) when no history entry qualifies. -/
theorem resume_selector_latest_spec (stepNdead : List Int) (peak : Nat) :
    ((∀ i, i < stepNdead.length → ¬ stepNdead.getD i 0 - 1 < (peak : Int)) →
      selectResumeNdead stepNdead peak = none)
    ∧ (∀ i, i < stepNdead.length → stepNdead.getD i 0 - 1 < (peak : Int) →
        (∀ j, i < j → j < stepNdead.length →
          ¬ stepNdead.getD j 0 - 1 < (peak : Int)) →
        selectResumeNdead stepNdead peak = some (stepNdead.getD i 0)) := by
  constructor
  · intro h
    have hnone := filter_range_getLast?_none stepNdead.length
      (fun i => decide (stepNdead.getD i 0 - 1 < (peak : Int)))
      (by intro i hi; simpa using h i hi)
    simp only [selectResumeNdead, hnone]
  · intro i hi hp hmax
    have hlast := filter_range_getLast?_max stepNdead.length
      (fun i => decide (stepNdead.getD i 0 - 1 < (peak : Int))) i hi
      (by simpa using hp)
      (by intro j h1 h2; simpa using hmax j h1 h2)
    simp only [selectResumeNdead, hlast]

/-- Witness for C3: on history `[5, 7]` with peak-onset 10 the qualifying
indices are 0 and 1, and the selector returns the entry at index 1. -/
theorem resume_selector_latest_spec_witness :
    selectResumeNdead [5, 7] 10 = some (([5, 7] : List Int).getD 1 0) :=
  (resume_selector_latest_spec [5, 7] 10).2 1 (by decide) (by decide)
    (by intro j h1 h2; simp at h2; omega)

/-- Claim C4 (counterexample): on checkpoint dead-counts `[10, 20, 30, 40]`
with peak-onset index 25 the selector does not pick the checkpoint at dead
count 30: `30 - 1 = 29` is not `< 25`, so 30 does not qualify. -/
theorem resume_selector_example_counterexample :
    selectResumeNdead [10, 20, 30, 40] 25 ≠ some 30 := by decide

/-- Claim C4 (amended): on checkpoint dead-counts `[10, 20, 30, 40]` with
peak-onset index 25 the selected checkpoint is the one at dead count 20,
the largest entry whose value minus one is strictly below 25. -/
theorem resume_selector_example_amended :
    selectResumeNdead [10, 20, 30, 40] 25 = some 20 := by decide

/-! ### The schedule calculator -/

theorem peakStartInd_lt_length :
    ∀ (a : List Rat) (x : Rat) (p : Nat),
      peakStartInd a x = some p → p < a.length := by
  intro a
  induction a with
  | nil => intro x p h; simp [peakStartInd] at h
  | cons y ys ih =>
    intro x p h
    simp only [peakStartInd] at h
    by_cases hc : x < y
    · rw [if_pos hc] at h
      injection h with h'
      subst h'
      simp
    · rw [if_neg hc] at h
      rcases Option.map_eq_some'.mp h with ⟨q, hq, hpq⟩
      have := ih x q hq
      subst hpq
      simp only [List.length_cons]
      omega

theorem peakStartInd_first :
    ∀ (a : List Rat) (x : Rat) (p : Nat), peakStartInd a x = some p →
      x < a.getD p 0 ∧ ∀ j, j < p → ¬ x < a.getD j 0 := by
  intro a
  induction a with
  | nil => intro x p h; simp [peakStartInd] at h
  | cons y ys ih =>
    intro x p h
    simp only [peakStartInd] at h
    by_cases hc : x < y
    · rw [if_pos hc] at h
      injection h with h'
      subst h'
      refine ⟨by simpa using hc, ?_⟩
      intro j hj
      omega
    · rw [if_neg hc] at h
      rcases Option.map_eq_some'.mp h with ⟨q, hq, hpq⟩
      obtain ⟨h1, h2⟩ := ih x q hq
      subst hpq
      constructor
      · simpa using h1
      · intro j hj
        cases j with
        | zero => simpa using hc
        | succ j' =>
          rw [List.getD_cons_succ]
          exact h2 j' (by omega)

/-- Claim C5: `peak_start_ind` is the first index at which the scaled
target exceeds `ninit`, and after the clamp `nlives_array[:peak] = ninit`
every scheduled value strictly before the peak-onset index equals `ninit`
exactly. -/
theorem schedule_floor_before_peak (a : List Rat) (ninit : Rat) (p : Nat)
    (out : List Rat) (hp : peakStartInd a ninit = some p)
    (hout : clampNlives a ninit = some out) :
    (ninit < a.getD p 0 ∧ ∀ j, j < p → ¬ ninit < a.getD j 0)
    ∧ ∀ i, i < p → out.getD i 0 = ninit := by
  have hfirst := peakStartInd_first a ninit p hp
  have hplen := peakStartInd_lt_length a ninit p hp
  refine ⟨hfirst, ?_⟩
  have hout' : out = (List.range a.length).map
      (fun i => if i < p then ninit else a.getD i 0) := by
    unfold clampNlives at hout
    rw [hp] at hout
    injection hout with h'
    exact h'.symm
  subst hout'
  intro i hi
  have hilen : i < a.length := by omega
  have hlen : i < ((List.range a.length).map
      (fun i => if i < p then ninit else a.getD i 0)).length := by
    simpa using hilen
  rw [List.getD_eq_getElem _ _ hlen, List.getElem_map, List.getElem_range,
    if_pos hi]

/-- Witness for C5: on the scaled target array `[2, 3, 7, 9, 4]` with
`ninit = 5` the peak-onset index is 2 and both clamped entries before it
equal 5. -/
theorem schedule_floor_before_peak_witness :
    ((5 : Rat) < ([2, 3, 7, 9, 4] : List Rat).getD 2 0
      ∧ ∀ j, j < 2 → ¬ (5 : Rat) < ([2, 3, 7, 9, 4] : List Rat).getD j 0)
    ∧ ∀ i, i < 2 → ([5, 5, 7, 9, 4] : List Rat).getD i 0 = 5 :=
  schedule_floor_before_peak [2, 3, 7, 9, 4] 5 2 [5, 5, 7, 9, 4]
    (by decide) (by decide)

theorem scheduleSteps_length (n s : Nat) :
    (scheduleSteps n s).length = n / s := by
  simp [scheduleSteps]

theorem scheduleSteps_getD (n s i : Nat) (hi : i < n / s) :
    (scheduleSteps n s).getD i 0 = s * i := by
  unfold scheduleSteps
  have hlen : i < ((List.range (n / s)).map (fun j => s * j)).length := by
    simpa using hi
  rw [List.getD_eq_getElem _ _ hlen, List.getElem_map, List.getElem_range]

/-- Claim C6: the emitted sparse schedule seeds a far-below key
`-1e101 = -(10^101)` mapped to `ninit`; every further entry maps the key
`logl[steps[i]]` to the integer target computed one stride ahead at
`steps[i+1]`, entries whose integer target is below 1 being omitted, so
every emitted entry carries a count of at least 1; and under the run's
well-formedness assumptions every non-seed key is a real sample's `logl`,
hence strictly above the seed key. -/
theorem schedule_dict_spec (A L : List Rat) (dynStep : Nat) (ninit : Int)
    (hninit : 1 ≤ ninit) :
    ((-(10 ^ 101 : Rat), ninit)) ∈ buildNlivesDict A L dynStep ninit
    ∧ (∀ p ∈ buildNlivesDict A L dynStep ninit, 1 ≤ p.2)
    ∧ (∀ i, i + 1 < (scheduleSteps A.length dynStep).length →
        1 ≤ pyInt (A.getD ((scheduleSteps A.length dynStep).getD (i + 1) 0) 0) →
        (L.getD ((scheduleSteps A.length dynStep).getD i 0) 0,
          pyInt (A.getD ((scheduleSteps A.length dynStep).getD (i + 1) 0) 0))
          ∈ buildNlivesDict A L dynStep ninit)
    ∧ (∀ p ∈ buildNlivesDict A L dynStep ninit,
        p ≠ (-(10 ^ 101 : Rat), ninit) →
        ∃ i, i + 1 < (scheduleSteps A.length dynStep).length
          ∧ p = (L.getD ((scheduleSteps A.length dynStep).getD i 0) 0,
              pyInt (A.getD ((scheduleSteps A.length dynStep).getD (i + 1) 0) 0)))
    ∧ (1 ≤ dynStep → A.length = L.length →
        (∀ l ∈ L, -(10 ^ 101 : Rat) < l) →
        ∀ p ∈ buildNlivesDict A L dynStep ninit,
          p ≠ (-(10 ^ 101 : Rat), ninit) → -(10 ^ 101 : Rat) < p.1) := by
  have h4 : ∀ p ∈ buildNlivesDict A L dynStep ninit,
      p ≠ (-(10 ^ 101 : Rat), ninit) →
      ∃ i, i + 1 < (scheduleSteps A.length dynStep).length
        ∧ p = (L.getD ((scheduleSteps A.length dynStep).getD i 0) 0,
            pyInt (A.getD ((scheduleSteps A.length dynStep).getD (i + 1) 0) 0)) := by
    intro p hp hne
    rcases List.mem_cons.mp hp with heq | hmem
    · exact absurd heq hne
    · obtain ⟨i, hir, hfi⟩ := List.mem_filterMap.mp hmem
      have hir' := List.mem_range.mp hir
      by_cases hv : 1 ≤ pyInt (A.getD
          ((scheduleSteps A.length dynStep).getD (i + 1) 0) 0)
      · rw [if_pos hv] at hfi
        injection hfi with hfi'
        exact ⟨i, by omega, hfi'.symm⟩
      · rw [if_neg hv] at hfi
        exact absurd hfi (by simp)
  refine ⟨List.mem_cons_self _ _, ?_, ?_, h4, ?_⟩
  · intro p hp
    rcases List.mem_cons.mp hp with heq | hmem
    · rw [heq]
      exact hninit
    · obtain ⟨i, _, hfi⟩ := List.mem_filterMap.mp hmem
      by_cases hv : 1 ≤ pyInt (A.getD
          ((scheduleSteps A.length dynStep).getD (i + 1) 0) 0)
      · rw [if_pos hv] at hfi
        injection hfi with hfi'
        rw [← hfi']
        exact hv
      · rw [if_neg hv] at hfi
        exact absurd hfi (by simp)
  · intro i hlt hval
    refine List.mem_cons_of_mem _ (List.mem_filterMap.mpr
      ⟨i, List.mem_range.mpr (by omega), ?_⟩)
    rw [if_pos hval]
  · intro hs hAL hseed p hp hne
    obtain ⟨i, hlt, hpe⟩ := h4 p hp hne
    have hq : i + 1 ≤ A.length / dynStep := by
      have := scheduleSteps_length A.length dynStep
      omega
    have hi : i < A.length / dynStep := by omega
    have hmul1 : dynStep * (i + 1) ≤ dynStep * (A.length / dynStep) :=
      Nat.mul_le_mul_left _ hq
    have hmul2 : dynStep * (A.length / dynStep) ≤ A.length := by
      rw [Nat.mul_comm]
      exact Nat.div_mul_le_self _ _
    have hmul3 : dynStep * i + dynStep = dynStep * (i + 1) := by ring
    have hbound : dynStep * i < A.length := by omega
    have hgd := scheduleSteps_getD A.length dynStep i hi
    have hkey : p.1 = L.getD (dynStep * i) 0 := by
      rw [hpe, ← hgd]
    have hLbound : dynStep * i < L.length := by omega
    have hkey' : p.1 = L[dynStep * i] := by
      rw [hkey, List.getD_eq_getElem _ _ hLbound]
    rw [hkey']
    exact hseed _ (List.getElem_mem _)

/-- Witness for C6: on the clamped target array `[5, 5, 7, 9, 1/2]` with
`logl = [10, 11, 12, 13, 14]`, stride 2 and `ninit = 5`, the dictionary
holds the seed and the look-ahead entries. -/
theorem schedule_dict_spec_witness :
    ((-(10 ^ 101 : Rat), (5 : Int)))
      ∈ buildNlivesDict [5, 5, 7, 9, 1/2] [10, 11, 12, 13, 14] 2 5
    ∧ ∀ p ∈ buildNlivesDict [5, 5, 7, 9, 1/2] [10, 11, 12, 13, 14] 2 5,
        1 ≤ p.2 :=
  ⟨(schedule_dict_spec [5, 5, 7, 9, 1/2] [10, 11, 12, 13, 14] 2 5
      (by decide)).1,
   (schedule_dict_spec [5, 5, 7, 9, 1/2] [10, 11, 12, 13, 14] 2 5
      (by decide)).2.1⟩

/-! ### Settings handling -/

/-- Claim C8: `run_dynamic_polychord` edits only the per-phase deep
copies, so the caller's `pc_settings_in` is unchanged on return even
though the copies' `file_root`, `nlive`, `nlives`, `read_resume` and
`max_ndead` fields are rewritten (as witnessed here on the dynamic-phase
copy). -/
theorem settings_in_unchanged (s_in : PCSettingsPy)
    (ninit initStep dynStep : Int) (nlivesDict : List (Rat × Int))
    (nIter : Nat) :
    (run_dynamic_polychord_settings s_in ninit initStep dynStep
      nlivesDict nIter).1 = s_in
    ∧ (run_dynamic_polychord_settings s_in ninit initStep dynStep
        nlivesDict nIter).2.2.file_root = s_in.file_root ++ "_dyn"
    ∧ (run_dynamic_polychord_settings s_in ninit initStep dynStep
        nlivesDict nIter).2.2.read_resume = true
    ∧ (run_dynamic_polychord_settings s_in ninit initStep dynStep
        nlivesDict nIter).2.2.nlive = dynStep
    ∧ (run_dynamic_polychord_settings s_in ninit initStep dynStep
        nlivesDict nIter).2.2.nlives = nlivesDict :=
  ⟨rfl, rfl, rfl, rfl, rfl⟩

/-! ### process_dypolychord_run assertions -/

/-- Claim C10: `process_dypolychord_run` raises (before any merging) when
some thread of the loaded exploratory run has a birth bound other than
`-inf`, and, when `dynamic_goal == 0`, when some thread of the dynamic run
has a birth bound other than `-inf`. -/
theorem process_birth_asserts (init dyn : NSRun) (info : DynInfo)
    (g : Int) :
    ((∃ row ∈ init.thread_min_max, row.1 ≠ none) →
      process_dypolychord_run init dyn info g = .error .initBirthAssert)
    ∧ ((∀ row ∈ init.thread_min_max, row.1 = none) → g = 0 →
        (∃ row ∈ dyn.thread_min_max, row.1 ≠ none) →
        process_dypolychord_run init dyn info g = .error .dynBirthAssert) := by
  constructor
  · rintro ⟨row, hmem, hne⟩
    unfold process_dypolychord_run
    rw [if_neg]
    intro hall
    rw [List.all_eq_true] at hall
    exact hne (Option.isNone_iff_eq_none.mp (hall row hmem))
  · rintro hall hg ⟨row, hmem, hne⟩
    unfold process_dypolychord_run
    rw [if_pos, if_pos]
    · exact ⟨hg, by
        intro hd
        rw [List.all_eq_true] at hd
        exact hne (Option.isNone_iff_eq_none.mp (hd row hmem))⟩
    · rw [List.all_eq_true]
      intro row hrow
      exact Option.isNone_iff_eq_none.mpr (hall row hrow)

/-- Witness for C10: a run whose single thread was born at `logl = 1`
(not `-inf`) is rejected before any merging. -/
theorem process_birth_asserts_witness :
    process_dypolychord_run
      ⟨[], [], [], [], [(some 1, 2)]⟩ ⟨[], [], [], [], []⟩ ⟨none⟩ 1
      = .error .initBirthAssert :=
  (process_birth_asserts ⟨[], [], [], [], [(some 1, 2)]⟩
    ⟨[], [], [], [], []⟩ ⟨none⟩ 1).1
    ⟨(some 1, 2), by simp, by simp⟩

/-! ### The live-point removal loop -/

theorem liveLoopGo_liveInds_of_none (dynLogl tailLogl : List Rat)
    (labels : List Int) :
    ∀ (labs : List Int) (i : Nat) (tmm : List (Option Rat × Rat))
      (li ei : List Nat),
      (liveLoopGo dynLogl tailLogl labels labs i tmm li ei).err = none →
      (liveLoopGo dynLogl tailLogl labels labs i tmm li ei).liveInds
        = li ++ labs.map (fun lab => (idxsOf lab labels).headD 0) := by
  intro labs
  induction labs with
  | nil =>
    intro i tmm li ei _
    simp [liveLoopGo]
  | cons lab rest ih =>
    intro i tmm li ei herr
    rcases hidx : idxsOf lab labels with _ | ⟨j, tl⟩
    · simp only [liveLoopGo, hidx] at herr
      exact absurd herr (by simp)
    · simp only [liveLoopGo, hidx] at herr ⊢
      by_cases hc : dynLogl.count (tailLogl.getD j 0) = 1
      · rw [if_pos hc] at herr ⊢
        by_cases hl : i < tmm.length
        · rw [if_pos hl] at herr ⊢
          rw [ih _ _ _ _ herr]
          simp [hidx]
        · rw [if_neg hl] at herr
          exact absurd herr (by simp)
      · rw [if_neg hc] at herr
        exact absurd herr (by simp)

theorem liveLoopGo_some_cases (dynLogl tailLogl : List Rat)
    (labels : List Int) :
    ∀ (labs : List Int) (i : Nat) (tmm : List (Option Rat × Rat))
      (li ei : List Nat) (e : MergeErr),
      (liveLoopGo dynLogl tailLogl labels labs i tmm li ei).err = some e →
      e = .indexError ∨ e = .tmmIndexError ∨ ∃ l, e = .liveNotUnique l := by
  intro labs
  induction labs with
  | nil =>
    intro i tmm li ei e herr
    simp [liveLoopGo] at herr
  | cons lab rest ih =>
    intro i tmm li ei e herr
    rcases hidx : idxsOf lab labels with _ | ⟨j, tl⟩
    · simp only [liveLoopGo, hidx] at herr
      injection herr with herr
      exact Or.inl herr.symm
    · simp only [liveLoopGo, hidx] at herr
      by_cases hc : dynLogl.count (tailLogl.getD j 0) = 1
      · rw [if_pos hc] at herr
        by_cases hl : i < tmm.length
        · rw [if_pos hl] at herr
          exact ih _ _ _ _ _ herr
        · rw [if_neg hl] at herr
          injection herr with herr
          exact Or.inr (Or.inl herr.symm)
      · rw [if_neg hc] at herr
        injection herr with herr
        exact Or.inr (Or.inr ⟨tailLogl.getD j 0, herr.symm⟩)

theorem liveLoopGo_err_of_violation (dynLogl tailLogl : List Rat)
    (labels : List Int) :
    ∀ (labs : List Int) (i : Nat) (tmm : List (Option Rat × Rat))
      (li ei : List Nat),
      (∃ lab ∈ labs, ¬ dynLogl.count
        (tailLogl.getD ((idxsOf lab labels).headD 0) 0) = 1) →
      ¬ (liveLoopGo dynLogl tailLogl labels labs i tmm li ei).err = none := by
  intro labs
  induction labs with
  | nil =>
    intro i tmm li ei hex
    simp at hex
  | cons lab rest ih =>
    intro i tmm li ei hex
    obtain ⟨v, hv, hvc⟩ := hex
    rcases hidx : idxsOf lab labels with _ | ⟨j, tl⟩
    · simp only [liveLoopGo, hidx]
      simp
    · simp only [liveLoopGo, hidx]
      by_cases hc : dynLogl.count (tailLogl.getD j 0) = 1
      · rw [if_pos hc]
        by_cases hl : i < tmm.length
        · rw [if_pos hl]
          apply ih
          rcases List.mem_cons.mp hv with rfl | hvrest
          · rw [hidx, List.headD_cons] at hvc
            exact absurd hc hvc
          · exact ⟨v, hvrest, hvc⟩
        · rw [if_neg hl]
          simp
      · rw [if_neg hc]
        simp

theorem liveLoopGo_liveNotUnique_violation (dynLogl tailLogl : List Rat)
    (labels : List Int) :
    ∀ (labs : List Int) (i : Nat) (tmm : List (Option Rat × Rat))
      (li ei : List Nat) (l : Rat),
      (liveLoopGo dynLogl tailLogl labels labs i tmm li ei).err
        = some (.liveNotUnique l) →
      ∃ lab ∈ labs, ¬ dynLogl.count
        (tailLogl.getD ((idxsOf lab labels).headD 0) 0) = 1 := by
  intro labs
  induction labs with
  | nil =>
    intro i tmm li ei l herr
    simp [liveLoopGo] at herr
  | cons lab rest ih =>
    intro i tmm li ei l herr
    rcases hidx : idxsOf lab labels with _ | ⟨j, tl⟩
    · simp only [liveLoopGo, hidx] at herr
      simp at herr
    · simp only [liveLoopGo, hidx] at herr
      by_cases hc : dynLogl.count (tailLogl.getD j 0) = 1
      · rw [if_pos hc] at herr
        by_cases hl : i < tmm.length
        · rw [if_pos hl] at herr
          obtain ⟨v, hvrest, hvc⟩ := ih _ _ _ _ _ herr
          exact ⟨v, List.mem_cons_of_mem _ hvrest, hvc⟩
        · rw [if_neg hl] at herr
          simp at herr
      · rw [if_neg hc] at herr
        refine ⟨lab, List.mem_cons_self _ _, ?_⟩
        rw [hidx]
        simpa using hc

/-! ### The relabelling pass and the merge dispatch -/

theorem relabelGo_some_cases (logl : List Rat) (labels : List Int)
    (tmm : List (Option Rat × Rat)) :
    ∀ (labs : List Int) (i : Nat) (e : MergeErr),
      relabelGo logl labels tmm labs i = some e →
      e = .indexError ∨ e = .relabelIndexError ∨ e = .relabelMinAssert
        ∨ e = .relabelMaxAssert := by
  intro labs
  induction labs with
  | nil =>
    intro i e h
    simp [relabelGo] at h
  | cons lab rest ih =>
    intro i e h
    rcases hidx : idxsOf lab labels with _ | ⟨j, tl⟩
    · simp only [relabelGo, hidx] at h
      injection h with h
      exact Or.inl h.symm
    · simp only [relabelGo, hidx] at h
      split at h
      · split at h
        · split at h
          · exact ih _ _ h
          · injection h with h
            exact Or.inr (Or.inr (Or.inr h.symm))
        · injection h with h
          exact Or.inr (Or.inr (Or.inl h.symm))
      · injection h with h
        exact Or.inr (Or.inl h.symm)

theorem finishInit_logl (d : Nat) (r : NSRun) (ei : List Nat) :
    (finishInit d r ei).2.logl = r.logl := by
  unfold finishInit
  split
  · rfl
  · split <;> rfl

theorem finishInit_some_cases (d : Nat) (r : NSRun) (ei : List Nat)
    (oe : Option MergeErr) (i3 : NSRun) (e : MergeErr)
    (hfi : finishInit d r ei = (oe, i3)) (hoe : oe = some e) :
    e = .indexError ∨ e = .relabelIndexError ∨ e = .relabelMinAssert
      ∨ e = .relabelMaxAssert := by
  subst hoe
  unfold finishInit at hfi
  split at hfi
  · injection hfi with h1 h2
    simp at h1
  · split at hfi
    · rename_i e' heq
      injection hfi with h1 h2
      injection h1 with h1
      subst h1
      exact relabelGo_some_cases _ _ _ _ _ _ heq
    · injection hfi with h1 h2
      simp at h1

theorem combineThreadsLogl_ok (dynR initR : NSRun) (l : List Rat)
    (h : combineThreadsLogl dynR initR = .ok l) :
    l = sortLe (dynR.logl ++ initR.logl) := by
  unfold combineThreadsLogl at h
  split at h
  · injection h with h
    exact h.symm
  · exact absurd h (by simp)

theorem combineThreadsLogl_error (dynR initR : NSRun) (e : MergeErr)
    (h : combineThreadsLogl dynR initR = .error e) :
    e = .birthPointAssert := by
  unfold combineThreadsLogl at h
  split at h
  · exact absurd h (by simp)
  · injection h with h
    exact h.symm

/-- Every success of the resumed merge passes the shared-prefix check and
the live-point loop, and its output is the reordered concatenation of the
dynamic run's `logl` with what remains of the exploratory run's `logl`
after `np.delete`-ing the live-at-resume positions. -/
theorem combine_ok_shape (k : Nat) (initR dynR : NSRun) (out : List Rat)
    (hok : (combine_resumed_dyn_run k ⟨initR, dynR⟩).1 = .ok out) :
    initR.logl.take k = dynR.logl.take k
    ∧ (afterLive dynR (dropShared k initR)).err = none
    ∧ (combine_resumed_dyn_run k ⟨initR, dynR⟩).2.init.logl
        = npDelete (dropShared k initR).logl
            (afterLive dynR (dropShared k initR)).liveInds
    ∧ out = sortLe (dynR.logl
        ++ (combine_resumed_dyn_run k ⟨initR, dynR⟩).2.init.logl) := by
  rcases hrun : combine_resumed_dyn_run k ⟨initR, dynR⟩ with ⟨res, stf⟩
  rw [hrun] at hok
  have hok' : res = Except.ok out := hok
  show initR.logl.take k = dynR.logl.take k
    ∧ (afterLive dynR (dropShared k initR)).err = none
    ∧ stf.init.logl = npDelete (dropShared k initR).logl
        (afterLive dynR (dropShared k initR)).liveInds
    ∧ out = sortLe (dynR.logl ++ stf.init.logl)
  unfold combine_resumed_dyn_run at hrun
  split at hrun
  · rename_i hpre
    split at hrun
    · rename_i e heq
      injection hrun with h1 h2
      rw [← h1] at hok'
      simp at hok'
    · rename_i heq
      split at hrun
      · rename_i e i3 hfi
        injection hrun with h1 h2
        rw [← h1] at hok'
        simp at hok'
      · rename_i i3 hfi
        split at hrun
        · rename_i l hct
          injection hrun with h1 h2
          rw [← h1] at hok'
          injection hok' with hok'
          have hl := combineThreadsLogl_ok dynR i3 l hct
          have hinit3 : stf.init = i3 := by rw [← h2]
          have hlogl : stf.init.logl = npDelete (dropShared k initR).logl
              (afterLive dynR (dropShared k initR)).liveInds := by
            rw [hinit3]
            have h3 : (finishInit dynR.thread_min_max.length
                (dedupInit (dropShared k initR)
                  (afterLive dynR (dropShared k initR)))
                (afterLive dynR (dropShared k initR)).emptyInds).2.logl
                = (dedupInit (dropShared k initR)
                    (afterLive dynR (dropShared k initR))).logl :=
              finishInit_logl _ _ _
            rw [hfi] at h3
            exact h3
          refine ⟨hpre, heq, hlogl, ?_⟩
          rw [← hok', hl, hinit3]
        · rename_i e hct
          injection hrun with h1 h2
          rw [← h1] at hok'
          simp at hok'
  · injection hrun with h1 h2
    rw [← h1] at hok'
    simp at hok'

/-- Classification of every failure of the resumed merge once the
shared-prefix check has passed: the failure is the live-point loop's, or
one of the later relabel/birth-point checks'. -/
theorem combine_error_classify (initR dynR : NSRun) (k : Nat) (e : MergeErr)
    (hpre : initR.logl.take k = dynR.logl.take k)
    (he : (combine_resumed_dyn_run k ⟨initR, dynR⟩).1 = .error e) :
    (afterLive dynR (dropShared k initR)).err = some e
    ∨ e = .indexError ∨ e = .relabelIndexError ∨ e = .relabelMinAssert
      ∨ e = .relabelMaxAssert ∨ e = .birthPointAssert := by
  rcases hrun : combine_resumed_dyn_run k ⟨initR, dynR⟩ with ⟨res, stf⟩
  rw [hrun] at he
  have he' : res = Except.error e := he
  unfold combine_resumed_dyn_run at hrun
  split at hrun
  · split at hrun
    · rename_i e' heq
      injection hrun with h1 h2
      rw [← h1] at he'
      injection he' with he'
      subst he'
      exact Or.inl heq
    · rename_i heq
      split at hrun
      · rename_i e' i3 hfi
        injection hrun with h1 h2
        rw [← h1] at he'
        injection he' with he'
        subst he'
        have hfour := finishInit_some_cases _ _ _ _ _ _ hfi rfl
        right
        tauto
      · rename_i i3 hfi
        split at hrun
        · rename_i l hct
          injection hrun with h1 h2
          rw [← h1] at he'
          simp at he'
        · rename_i e' hct
          injection hrun with h1 h2
          rw [← h1] at he'
          injection he' with he'
          subst he'
          exact Or.inr (Or.inr (Or.inr (Or.inr (Or.inr
            (combineThreadsLogl_error _ _ _ hct)))))
  · rename_i hpre'
    exact absurd hpre hpre'

/-! ### Claims about the resumed merge -/

/-- Claim C1 (amended): for an exploratory and a dynamic run sharing an
exact prefix of `resume_ndead` samples, a successful merge has exactly
`exploratory_len + dynamic_len - resume_ndead - (number of live-at-resume
points, one per thread present in the exploratory tail)` samples; and its
`logl` values contain no duplicates provided the dynamic run's `logl`
values are distinct, the exploratory samples surviving the prefix and
live-point removal have distinct `logl` values, and the two share no
`logl` value (the code checks only the prefix and live points, so this
residual disjointness is a genuine hypothesis). -/
theorem combine_count_and_dedup (init dyn : NSRun) (k : Nat)
    (out : List Rat)
    (hwf : init.thread_labels.length = init.logl.length)
    (hk : k ≤ init.logl.length)
    (hok : (combine_resumed_dyn_run k ⟨init, dyn⟩).1 = .ok out) :
    out.length = init.logl.length + dyn.logl.length - k
        - (npUnique (init.thread_labels.drop k)).length
    ∧ (dyn.logl.Nodup →
        ((combine_resumed_dyn_run k ⟨init, dyn⟩).2.init.logl).Nodup →
        (∀ x ∈ (combine_resumed_dyn_run k ⟨init, dyn⟩).2.init.logl,
          x ∉ dyn.logl) →
        out.Nodup) := by
  obtain ⟨hpre, herr, hlogl, hout⟩ := combine_ok_shape k init dyn out hok
  have herr' : (liveLoopGo dyn.logl (init.logl.drop k)
      (init.thread_labels.drop k) (npUnique (init.thread_labels.drop k)) 0
      (dropShared k init).thread_min_max [] []).err = none := herr
  have hli := liveLoopGo_liveInds_of_none dyn.logl (init.logl.drop k)
    (init.thread_labels.drop k) (npUnique (init.thread_labels.drop k)) 0
    (dropShared k init).thread_min_max [] [] herr'
  have hlive : (afterLive dyn (dropShared k init)).liveInds
      = (npUnique (init.thread_labels.drop k)).map
          (fun lab => (idxsOf lab (init.thread_labels.drop k)).headD 0) := by
    have hbr : (afterLive dyn (dropShared k init)).liveInds
        = (liveLoopGo dyn.logl (init.logl.drop k)
            (init.thread_labels.drop k)
            (npUnique (init.thread_labels.drop k)) 0
            (dropShared k init).thread_min_max [] []).liveInds := rfl
    rw [hbr, hli]
    simp
  have hmemf : ∀ lab ∈ npUnique (init.thread_labels.drop k),
      (idxsOf lab (init.thread_labels.drop k)).headD 0
        ∈ idxsOf lab (init.thread_labels.drop k) := by
    intro lab h
    exact headD_mem (idxsOf_ne_nil (mem_npUnique.mp h))
  have hflt : ∀ lab ∈ npUnique (init.thread_labels.drop k),
      (idxsOf lab (init.thread_labels.drop k)).headD 0
        < (init.thread_labels.drop k).length :=
    fun lab h => (mem_idxsOf (hmemf lab h)).2
  have hfget : ∀ lab ∈ npUnique (init.thread_labels.drop k),
      (init.thread_labels.drop k).getD
        ((idxsOf lab (init.thread_labels.drop k)).headD 0) 0 = lab :=
    fun lab h => (mem_idxsOf (hmemf lab h)).1
  have hnodup : ((npUnique (init.thread_labels.drop k)).map
      (fun lab => (idxsOf lab (init.thread_labels.drop k)).headD 0)).Nodup := by
    apply List.Nodup.map_on
    · intro x hx y hy hxy
      rw [← hfget x hx, ← hfget y hy, hxy]
    · exact npUnique_nodup _
  have hbound : ∀ j ∈ (npUnique (init.thread_labels.drop k)).map
      (fun lab => (idxsOf lab (init.thread_labels.drop k)).headD 0),
      j < (init.logl.drop k).length := by
    intro j hj
    obtain ⟨lab, hlab, hje⟩ := List.mem_map.mp hj
    have h1 := hflt lab hlab
    rw [List.length_drop] at h1 ⊢
    rw [← hje]
    omega
  have hdel := npDelete_length (init.logl.drop k)
    ((npUnique (init.thread_labels.drop k)).map
      (fun lab => (idxsOf lab (init.thread_labels.drop k)).headD 0))
    hnodup hbound
  have hlogl2 : (combine_resumed_dyn_run k ⟨init, dyn⟩).2.init.logl
      = npDelete (init.logl.drop k)
          ((npUnique (init.thread_labels.drop k)).map
            (fun lab => (idxsOf lab (init.thread_labels.drop k)).headD 0)) := by
    rw [hlogl, hlive]
    exact rfl
  constructor
  · rw [hout, sortLe_length, List.length_append, hlogl2]
    have hlend : (init.logl.drop k).length = init.logl.length - k :=
      List.length_drop _ _
    have hmaplen : (((npUnique (init.thread_labels.drop k)).map
        (fun lab => (idxsOf lab (init.thread_labels.drop k)).headD 0))).length
        = (npUnique (init.thread_labels.drop k)).length :=
      List.length_map _ _
    omega
  · intro h1 h2 h3
    rw [hout, sortLe_nodup_iff, List.nodup_append]
    refine ⟨h1, h2, ?_⟩
    rw [List.disjoint_left]
    intro a ha hb
    exact h3 a hb ha

/-- Witness for C1: a fully concrete successful merge; 3 exploratory and 5
dynamic samples sharing a prefix of 1, with one live-at-resume point,
merge into 6 duplicate-free samples. -/
theorem combine_count_and_dedup_witness :
    ([1, 2, 3, 4, 5, 6] : List Rat).length
      = (⟨[[], [], []], [1, 2, 3], [3, 3, 3], [0, 0, 0],
          [(none, 3)]⟩ : NSRun).logl.length
        + (⟨[[], [], [], [], []], [1, 2, 4, 5, 6], [3, 3, 3, 3, 3],
            [0, 0, 0, 0, 0], [(none, 6)]⟩ : NSRun).logl.length - 1
        - (npUnique ((⟨[[], [], []], [1, 2, 3], [3, 3, 3], [0, 0, 0],
            [(none, 3)]⟩ : NSRun).thread_labels.drop 1)).length
    ∧ ([1, 2, 3, 4, 5, 6] : List Rat).Nodup := by
  have h := combine_count_and_dedup
    ⟨[[], [], []], [1, 2, 3], [3, 3, 3], [0, 0, 0], [(none, 3)]⟩
    ⟨[[], [], [], [], []], [1, 2, 4, 5, 6], [3, 3, 3, 3, 3],
      [0, 0, 0, 0, 0], [(none, 6)]⟩ 1 [1, 2, 3, 4, 5, 6]
    (by decide) (by decide) (by rfl)
  exact ⟨h.1, h.2 (by decide) (by decide) (by decide)⟩

/-- Claim C1 (counterexample): merely sharing an exact prefix does not
rule out duplicate `logl` values in the merged run.  Here the two runs
share the prefix `[1]`, the merge succeeds and satisfies the count
formula (5 = 3 + 4 - 1 - 1), yet `logl = 3` occurs twice because the
dynamic run also contains the exploratory tail value 3, which neither the
prefix check nor the live-point check inspects. -/
theorem combine_dup_counterexample :
    ((⟨[[], [], []], [1, 2, 3], [3, 3, 3], [0, 0, 0],
        [(none, 3)]⟩ : NSRun).logl.take 1
      = (⟨[[], [], [], []], [1, 2, 3, 4], [3, 3, 3, 3], [0, 0, 0, 0],
          [(none, 4)]⟩ : NSRun).logl.take 1)
    ∧ (combine_resumed_dyn_run 1
        ⟨⟨[[], [], []], [1, 2, 3], [3, 3, 3], [0, 0, 0], [(none, 3)]⟩,
         ⟨[[], [], [], []], [1, 2, 3, 4], [3, 3, 3, 3], [0, 0, 0, 0],
           [(none, 4)]⟩⟩).1 = .ok [1, 2, 3, 3, 4]
    ∧ ¬ ([1, 2, 3, 3, 4] : List Rat).Nodup :=
  ⟨by decide, by rfl, by decide⟩

/-- Claim C7: with the embedded assertion sites as distinct errors, the
resumed merge aborts with the prefix-mismatch assertion exactly when the
first `resume_ndead` `logl` values differ; it aborts (with some error)
whenever some live-at-resume point's `logl` does not occur exactly once
in the dynamic run; and when both checks pass neither of these two
assertions fires, so the merge proceeds past them. -/
theorem merge_checks_raise (init dyn : NSRun) (k : Nat) :
    (¬ init.logl.take k = dyn.logl.take k →
      (combine_resumed_dyn_run k ⟨init, dyn⟩).1 = .error .prefixMismatch)
    ∧ (init.logl.take k = dyn.logl.take k →
        (∃ lab ∈ npUnique (init.thread_labels.drop k),
          ¬ dyn.logl.count ((init.logl.drop k).getD
            ((idxsOf lab (init.thread_labels.drop k)).headD 0) 0) = 1) →
        ∃ e, (combine_resumed_dyn_run k ⟨init, dyn⟩).1 = .error e)
    ∧ (init.logl.take k = dyn.logl.take k →
        (∀ lab ∈ npUnique (init.thread_labels.drop k),
          dyn.logl.count ((init.logl.drop k).getD
            ((idxsOf lab (init.thread_labels.drop k)).headD 0) 0) = 1) →
        (combine_resumed_dyn_run k ⟨init, dyn⟩).1 ≠ .error .prefixMismatch
        ∧ ∀ l, (combine_resumed_dyn_run k ⟨init, dyn⟩).1
            ≠ .error (.liveNotUnique l)) := by
  refine ⟨?_, ?_, ?_⟩
  · intro hpre
    show (combine_resumed_dyn_run k ⟨init, dyn⟩).1 = _
    unfold combine_resumed_dyn_run
    rw [if_neg hpre]
  · intro hpre hviol
    have hv : ¬ (afterLive dyn (dropShared k init)).err = none := by
      have hv' := liveLoopGo_err_of_violation dyn.logl (init.logl.drop k)
        (init.thread_labels.drop k) (npUnique (init.thread_labels.drop k)) 0
        (dropShared k init).thread_min_max [] [] hviol
      exact hv'
    rcases ho : (afterLive dyn (dropShared k init)).err with _ | e
    · exact absurd ho hv
    · refine ⟨e, ?_⟩
      show (combine_resumed_dyn_run k ⟨init, dyn⟩).1 = _
      unfold combine_resumed_dyn_run
      rw [if_pos hpre]
      simp only [ho]
  · intro hpre hcounts
    constructor
    · intro habs
      rcases combine_error_classify init dyn k _ hpre habs
        with h | h | h | h | h | h
      · have h' : (liveLoopGo dyn.logl (init.logl.drop k)
            (init.thread_labels.drop k)
            (npUnique (init.thread_labels.drop k)) 0
            (dropShared k init).thread_min_max [] []).err
            = some MergeErr.prefixMismatch := h
        rcases liveLoopGo_some_cases dyn.logl (init.logl.drop k)
          (init.thread_labels.drop k)
          (npUnique (init.thread_labels.drop k)) 0
          (dropShared k init).thread_min_max [] [] _ h'
          with h1 | h1 | ⟨l, h1⟩ <;> simp at h1
      all_goals simp at h
    · intro l habs
      rcases combine_error_classify init dyn k _ hpre habs
        with h | h | h | h | h | h
      · have h' : (liveLoopGo dyn.logl (init.logl.drop k)
            (init.thread_labels.drop k)
            (npUnique (init.thread_labels.drop k)) 0
            (dropShared k init).thread_min_max [] []).err
            = some (MergeErr.liveNotUnique l) := h
        obtain ⟨lab, hlab, hc⟩ := liveLoopGo_liveNotUnique_violation
          dyn.logl (init.logl.drop k) (init.thread_labels.drop k)
          (npUnique (init.thread_labels.drop k)) 0
          (dropShared k init).thread_min_max [] [] l h'
        exact hc (hcounts lab hlab)
      all_goals simp at h

/-- Witness for C7: a one-sample prefix mismatch aborts the merge with the
prefix assertion. -/
theorem merge_checks_raise_witness :
    (combine_resumed_dyn_run 1
      ⟨⟨[[]], [5], [1], [0], [(none, 5)]⟩,
       ⟨[[]], [6], [1], [0], [(none, 6)]⟩⟩).1
      = .error .prefixMismatch :=
  (merge_checks_raise ⟨[[]], [5], [1], [0], [(none, 5)]⟩
    ⟨[[]], [6], [1], [0], [(none, 6)]⟩ 1).1 (by decide)

/-- Claim C9: the resumed merge never writes to its `dyn` argument (the
final state's `dyn` equals the input in every case), while `init` is
mutated in place: on a successful concrete merge `theta`, `logl`,
`nlive_array` and `thread_labels` are truncated, `thread_min_max` is
rewritten with the live point's `logl` and the labels are relabelled and
offset; and when the live-point assertion fails partway the caller is
left with the partially truncated `init` (the prefix already dropped),
not the original. -/
theorem merge_mutation_effects :
    (∀ (k : Nat) (st : MergeState),
      (combine_resumed_dyn_run k st).2.dyn = st.dyn)
    ∧ (combine_resumed_dyn_run 1
        ⟨⟨[[], [], []], [0, 2, 3], [3, 3, 3], [0, 0, 0], [(none, 3)]⟩,
         ⟨[[], [], [], []], [0, 2, 4, 5], [3, 3, 3, 3], [0, 0, 0, 0],
           [(none, 5)]⟩⟩).2.init
        = ⟨[[]], [3], [3], [1], [(some 2, 3)]⟩
    ∧ (combine_resumed_dyn_run 1
        ⟨⟨[[], [], []], [0, 2, 3], [3, 3, 3], [0, 0, 0], [(none, 3)]⟩,
         ⟨[[], [], [], []], [0, 2, 2, 4], [3, 3, 3, 3], [0, 0, 0, 0],
           [(none, 4)]⟩⟩).1 = .error (.liveNotUnique 2)
    ∧ (combine_resumed_dyn_run 1
        ⟨⟨[[], [], []], [0, 2, 3], [3, 3, 3], [0, 0, 0], [(none, 3)]⟩,
         ⟨[[], [], [], []], [0, 2, 2, 4], [3, 3, 3, 3], [0, 0, 0, 0],
           [(none, 4)]⟩⟩).2.init.logl = [2, 3] := by
  refine ⟨?_, by rfl, by rfl, by rfl⟩
  intro k st
  unfold combine_resumed_dyn_run
  split
  · split
    · rfl
    · split
      · rfl
      · split <;> rfl
  · rfl

end DyPolyChord
